import Mathlib

/-!
Shallow embedding of the hafnian library (`src/hafnian.hpp`) and proofs
about its specification.  Floating-point / complex-double arithmetic is
modelled by exact rational arithmetic; machine integers by `ℤ`/`ℕ`.
-/

namespace Haf

/-- Complex numbers with rational components, modelling the
`std::complex<double>` values handled by the real `powtrace` overload
(under exact arithmetic). -/
@[ext]
structure CQ where
  re : ℚ
  im : ℚ
deriving DecidableEq

instance : Zero CQ := ⟨⟨0, 0⟩⟩

instance : One CQ := ⟨⟨1, 0⟩⟩

instance : Add CQ := ⟨fun a b => ⟨a.re + b.re, a.im + b.im⟩⟩

instance : Neg CQ := ⟨fun a => ⟨-a.re, -a.im⟩⟩

instance : Mul CQ := ⟨fun a b => ⟨a.re * b.re - a.im * b.im, a.re * b.im + a.im * b.re⟩⟩

instance : CommRing CQ where
  zero := 0
  one := 1
  add a b := a + b
  neg a := -a
  mul a b := a * b
  nsmul := nsmulRec
  zsmul := zsmulRec
  add_assoc a b c := by
    apply CQ.ext
    · show a.re + b.re + c.re = a.re + (b.re + c.re)
      ring
    · show a.im + b.im + c.im = a.im + (b.im + c.im)
      ring
  zero_add a := by
    apply CQ.ext
    · show 0 + a.re = a.re
      ring
    · show 0 + a.im = a.im
      ring
  add_zero a := by
    apply CQ.ext
    · show a.re + 0 = a.re
      ring
    · show a.im + 0 = a.im
      ring
  add_comm a b := by
    apply CQ.ext
    · show a.re + b.re = b.re + a.re
      ring
    · show a.im + b.im = b.im + a.im
      ring
  left_distrib a b c := by
    apply CQ.ext
    · show a.re * (b.re + c.re) - a.im * (b.im + c.im) =
        a.re * b.re - a.im * b.im + (a.re * c.re - a.im * c.im)
      ring
    · show a.re * (b.im + c.im) + a.im * (b.re + c.re) =
        a.re * b.im + a.im * b.re + (a.re * c.im + a.im * c.re)
      ring
  right_distrib a b c := by
    apply CQ.ext
    · show (a.re + b.re) * c.re - (a.im + b.im) * c.im =
        a.re * c.re - a.im * c.im + (b.re * c.re - b.im * c.im)
      ring
    · show (a.re + b.re) * c.im + (a.im + b.im) * c.re =
        a.re * c.im + a.im * c.re + (b.re * c.im + b.im * c.re)
      ring
  zero_mul a := by
    apply CQ.ext
    · show 0 * a.re - 0 * a.im = 0
      ring
    · show 0 * a.im + 0 * a.re = 0
      ring
  mul_zero a := by
    apply CQ.ext
    · show a.re * 0 - a.im * 0 = 0
      ring
    · show a.re * 0 + a.im * 0 = 0
      ring
  mul_assoc a b c := by
    apply CQ.ext
    · show (a.re * b.re - a.im * b.im) * c.re - (a.re * b.im + a.im * b.re) * c.im =
        a.re * (b.re * c.re - b.im * c.im) - a.im * (b.re * c.im + b.im * c.re)
      ring
    · show (a.re * b.re - a.im * b.im) * c.im + (a.re * b.im + a.im * b.re) * c.re =
        a.re * (b.re * c.im + b.im * c.re) + a.im * (b.re * c.re - b.im * c.im)
      ring
  one_mul a := by
    apply CQ.ext
    · show 1 * a.re - 0 * a.im = a.re
      ring
    · show 1 * a.im + 0 * a.re = a.im
      ring
  mul_one a := by
    apply CQ.ext
    · show a.re * 1 - a.im * 0 = a.re
      ring
    · show a.re * 0 + a.im * 1 = a.im
      ring
  mul_comm a b := by
    apply CQ.ext
    · show a.re * b.re - a.im * b.im = b.re * a.re - b.im * a.im
      ring
    · show a.re * b.im + a.im * b.re = b.re * a.im + b.im * a.re
      ring
  neg_add_cancel a := by
    apply CQ.ext
    · show -a.re + a.re = 0
      ring
    · show -a.im + a.im = 0
      ring

/-- Source: loop body of `powtrace`.  Carries the running vector `pvals`;
at each of the `l` iterations emits `Σ_j pvals[j]` and replaces
`pvals[j]` by `pvals[j] * vals[j]`. -/
def powtraceGo {R : Type} [Zero R] [Add R] [Mul R] (vals : List R) :
    ℕ → List R → List R
  | 0, _ => []
  | l + 1, pvals =>
      pvals.foldl (· + ·) 0 :: powtraceGo vals l (List.zipWith (· * ·) pvals vals)

/-- Source: `powtrace(vec_complex &z, int n, int l)`, after the eigensolver
has produced the eigenvalue vector `vals` (the wrapped Eigen backend is
external to the repository; per the spec it returns the eigenvalues, and
the function then computes the power sums). -/
def powtrace {R : Type} [Zero R] [Add R] [Mul R] (vals : List R) (l : ℕ) : List R :=
  powtraceGo vals l vals

/-- Source: loop body of the real overload `powtrace(vec_double &z, int n, int l)`:
identical to the complex loop except that each emitted entry is
`sum.real()`. -/
def powtraceDGo (vals : List CQ) : ℕ → List CQ → List ℚ
  | 0, _ => []
  | l + 1, pvals =>
      (pvals.foldl (· + ·) 0).re :: powtraceDGo vals l (List.zipWith (· * ·) pvals vals)

/-- Source: `powtrace(vec_double &z, int n, int l)` (real matrix overload),
after the eigensolver step; eigenvalues are complex, entries are the real
parts of the power sums. -/
def powtrace_d (vals : List CQ) (l : ℕ) : List ℚ :=
  powtraceDGo vals l vals

/-- Source: `dec2bin(char* dst, x, len)`.  `dst[t]` receives bit
`len - 1 - t` of `x` (most significant bit first). -/
def dec2bin (x m : ℕ) : List ℕ :=
  (List.range m).map (fun t => (x >>> (m - 1 - t)) &&& 1)

/-- Source: loop of `find2`; `i` is the running index into `dst`. -/
def find2Go : ℕ → List ℕ → List ℕ
  | _, [] => []
  | i, d :: rest =>
      if d = 1 then 2 * i :: (2 * i + 1) :: find2Go (i + 1) rest
      else find2Go (i + 1) rest

/-- Source: `find2(char* dst, len, pos)`: positions `2*i, 2*i+1` for each
index `i` with `dst[i] = 1`, in order. -/
def find2 (dst : List ℕ) : List ℕ :=
  find2Go 0 dst

/-- The position list `pos(x)` built by the chunk workers:
`dec2bin` followed by `find2`. -/
def posList (m x : ℕ) : List ℕ :=
  find2 (dec2bin x m)

/-- Spec-side subset `S(x) ⊆ {0, …, m−1}`: the set bits of `x` below `m`. -/
def Sx (m x : ℕ) : Finset ℕ :=
  (Finset.range m).filter (fun i => x.testBit i = true)

/-- Source: the reduced matrix `B` of side `sum = pos.length`:
`B[i][j] = mat[pos[i] * n + (pos[j] ^ 1)]`. -/
def redMat (mat : List ℚ) (n : ℕ) (pos : List ℕ) :
    Matrix (Fin pos.length) (Fin pos.length) ℚ :=
  Matrix.of fun i j => mat.getD (pos.get i * n + (pos.get j ^^^ 1)) 0

/-- Modelled from the spec: the eigensolver backend (the wrapped Eigen
library, external to this repository) produces the eigenvalues of `B`, and
`powtrace` then returns `τ[k−1] = Σ_j λ_j^k = tr(B^k)`; under exact
arithmetic this is the trace of the k-th matrix power, which is how the
trace vector of the chunk workers is modelled here. -/
def tracesOf (mat : List ℚ) (n x : ℕ) : List ℚ :=
  (List.range (n / 2)).map fun k =>
    Matrix.trace (redMat mat n (posList (n / 2) x) ^ (k + 1))

/-- Source: one pass (one value of `j`) of the inner double loop of the
chunk workers: `powfactor = powfactor * factor / j`, then
`comb[1−cntindex][k−1] += comb[cntindex][k−i·j−1] · powfactor` for
`k = i·j+1 … n/2+1`, which touches exactly the degrees `i·j ≤ d ≤ m` of
the row being written while reading the frozen old row `oldrow`. -/
def innerStep (oldrow : ℕ → ℚ) (i m : ℕ) (factor : ℚ)
    (acc : (ℕ → ℚ) × ℚ) (j : ℕ) : (ℕ → ℚ) × ℚ :=
  let pf := acc.2 * factor / (j : ℚ)
  (fun (d : ℕ) => if i * j ≤ d ∧ d ≤ m then acc.1 d + oldrow (d - i * j) * pf
    else acc.1 d, pf)

/-- Source: the whole inner double loop of the chunk workers for one trace
index `i` with scalar `factor`: `j` runs over `1 … n/(2i)` (note
`n/(2i) = (n/2)/i` for every `n`), starting from the freshly copied row
and `powfactor = 1`. -/
def combInner (oldrow : ℕ → ℚ) (i m : ℕ) (factor : ℚ) : (ℕ → ℚ) × ℚ :=
  (List.range' 1 (m / i)).foldl (innerStep oldrow i m factor) (oldrow, 1)

/-- Source: one iteration of the outer `i` loop of `do_chunk` (1-indexed
step `i`).  The pair holds `(comb[0], comb[1])`; the code recomputes
`cnt = (−1)^i` and `cntindex = (1+cnt)/2`, reads `comb[cntindex]` and
writes `comb[1−cntindex]` with `factor = traces[i−1] / (2i)`. -/
def combStep (tau : List ℚ) (m i : ℕ) (p : (ℕ → ℚ) × (ℕ → ℚ)) :
    (ℕ → ℚ) × (ℕ → ℚ) :=
  let ci : ℕ := if i % 2 = 0 then 1 else 0
  let rd := if ci = 0 then p.1 else p.2
  let wr := (combInner rd i m (tau.getD (i - 1) 0 / (2 * i))).1
  if ci = 0 then (p.1, wr) else (wr, p.2)

/-- The `(comb[0], comb[1])` pair after the first `i` iterations of the
outer loop of `do_chunk`; initially `comb[0][0] = 1` and all else `0`. -/
def combState (tau : List ℚ) (m : ℕ) : ℕ → ((ℕ → ℚ) × (ℕ → ℚ))
  | 0 => (fun d => if d = 0 then 1 else 0, fun _ => 0)
  | i + 1 => combStep tau m (i + 1) (combState tau m i)

/-- Value of `cntindex` after `i` iterations of the outer loop: it starts
at `0` and, inside iteration `i`, is recomputed to `(1 + (−1)^i)/2`. -/
def cntindexAfter (i : ℕ) : ℕ :=
  if i = 0 then 0 else if i % 2 = 0 then 1 else 0

/-- Source: the final read `comb[1 − cntindex][n/2]` of the chunk workers,
from the two-row state `p` after `m` outer iterations. -/
def extractVal (p : (ℕ → ℚ) × (ℕ → ℚ)) (m : ℕ) : ℚ :=
  (if cntindexAfter m = 0 then p.2 else p.1) m

/-- The row the code regards as current (that is, `comb[1 − cntindex]`)
after `i ≥ 1` outer iterations. -/
def currentRow (tau : List ℚ) (m i : ℕ) : ℕ → ℚ :=
  if cntindexAfter i = 0 then (combState tau m i).2 else (combState tau m i).1

/-- The generating-function rows as a plain chain (ignoring which of the
two ping-pong slots holds them): row `i` is obtained from row `i−1` by one
inner double loop with `factor = traces[i−1] / (2i)`. -/
def combChain (tau : List ℚ) (m : ℕ) : ℕ → (ℕ → ℚ)
  | 0 => fun d => if d = 0 then 1 else 0
  | i + 1 => (combInner (combChain tau m i) (i + 1) m
      (tau.getD (i + 1 - 1) 0 / (2 * ((i + 1 : ℕ) : ℚ)))).1

/-- Source: the body of the `x` loop of `do_chunk`: decode `x`, build the
reduced matrix, take power traces, run the generating-function fold, and
apply the final sign rule `(sum/2) % 2 == (n/2) % 2`. -/
def summand (mat : List ℚ) (n x : ℕ) : ℚ :=
  let m := n / 2
  let pos := posList m x
  let tau := tracesOf mat n x
  let val := extractVal (combState tau m m) m
  if pos.length / 2 % 2 = m % 2 then val else -val

/-- Source: `do_chunk(mat, n, X, chunksize)`: accumulates the summands for
`x = X, …, X + chunksize − 1` into `res`. -/
def do_chunk (mat : List ℚ) (n X chunksize : ℕ) : ℚ :=
  (List.range' X chunksize).foldl (fun res x => res + summand mat n x) 0

/-- Source: one iteration of the outer `i` loop of `do_chunk_loops`
(1-indexed step `i`).  The state carries the evolving restricted diagonal
row-vector `C1` and the two comb rows; the factor gains `0.5·Σ_j C1[j]·D1[j]`
and `C1` is advanced to `C1 · B`. -/
def loopStep {s : ℕ} (B : Matrix (Fin s) (Fin s) ℚ) (D1 : Fin s → ℚ)
    (tau : List ℚ) (m i : ℕ) (st : (Fin s → ℚ) × (ℕ → ℚ) × (ℕ → ℚ)) :
    (Fin s → ℚ) × (ℕ → ℚ) × (ℕ → ℚ) :=
  let c1 := st.1
  let factor := tau.getD (i - 1) 0 / (2 * i) + 1 / 2 * ∑ j, c1 j * D1 j
  let c1' := fun t => ∑ j, c1 j * B j t
  let ci : ℕ := if i % 2 = 0 then 1 else 0
  let rd := if ci = 0 then st.2.1 else st.2.2
  let wr := (combInner rd i m factor).1
  (c1', if ci = 0 then (st.2.1, wr) else (wr, st.2.2))

/-- The loop-mode state after the first `i` outer iterations of
`do_chunk_loops`. -/
def loopState {s : ℕ} (B : Matrix (Fin s) (Fin s) ℚ) (D1 : Fin s → ℚ)
    (tau : List ℚ) (m : ℕ) (c1 : Fin s → ℚ) :
    ℕ → ((Fin s → ℚ) × (ℕ → ℚ) × (ℕ → ℚ))
  | 0 => (c1, fun d => if d = 0 then 1 else 0, fun _ => 0)
  | i + 1 => loopStep B D1 tau m (i + 1) (loopState B D1 tau m c1 i)

/-- Source: the body of the `x` loop of `do_chunk_loops`: as in `do_chunk`
but with restricted diagonals `C1[i] = C[pos[i]]`, `D1[i] = D[pos[i]]` and
the loop-mode fold. -/
def loopSummand (mat Cv Dv : List ℚ) (n x : ℕ) : ℚ :=
  let m := n / 2
  let pos := posList m x
  let B := redMat mat n pos
  let C1 : Fin pos.length → ℚ := fun i => Cv.getD (pos.get i) 0
  let D1 : Fin pos.length → ℚ := fun i => Dv.getD (pos.get i) 0
  let tau := tracesOf mat n x
  let val := extractVal (loopState B D1 tau m C1 m).2 m
  if pos.length / 2 % 2 = m % 2 then val else -val

/-- Source: `do_chunk_loops(mat, C, D, n, X, chunksize)`: accumulates the
loop-mode summands for `x = X·chunksize, …, (X+1)·chunksize − 1`. -/
def do_chunk_loops (mat Cv Dv : List ℚ) (n X chunksize : ℕ) : ℚ :=
  (List.range' (X * chunksize) chunksize).foldl
    (fun res x => res + loopSummand mat Cv Dv n x) 0

/-- Error taxonomy of the spec relevant to the entry points. -/
inductive HafError where
  | EvenDimensionRequired
deriving DecidableEq

instance {ε α : Type} [DecidableEq ε] [DecidableEq α] : DecidableEq (Except ε α) :=
  fun x y =>
  match x, y with
  | Except.ok a, Except.ok b =>
      if h : a = b then isTrue (by rw [h])
      else isFalse (by intro hc; injection hc with h2; exact h h2)
  | Except.error e, Except.error f =>
      if h : e = f then isTrue (by rw [h])
      else isFalse (by intro hc; injection hc with h2; exact h h2)
  | Except.ok _, Except.error _ => isFalse (by intro hc; exact Except.noConfusion hc)
  | Except.error _, Except.ok _ => isFalse (by intro hc; exact Except.noConfusion hc)

/-- Source: `hafnian(mat)`: `n = √|mat|` (truncated), `assert(n % 2 == 0)`
modelled as the error branch, then one chunk `[0, 2^(n/2))`. -/
def hafnianChecked (mat : List ℚ) : Except HafError ℚ :=
  let n := Nat.sqrt mat.length
  if n % 2 = 0 then Except.ok (do_chunk mat n 0 (2 ^ (n / 2)))
  else Except.error HafError.EvenDimensionRequired

/-- Source: the `D` vector of `loop_hafnian`: `D[i] = mat[i*n + i]`. -/
def Dvec (mat : List ℚ) (n : ℕ) : List ℚ :=
  (List.range n).map fun i => mat.getD (i * n + i) 0

/-- Source: the `C` vector of `loop_hafnian`: for even `i`, `C[i] = D[i+1]`
and `C[i+1] = D[i]`, that is sibling-swapped `D` (`C[i] = D[i ^ 1]`). -/
def Cvec (Dv : List ℚ) (n : ℕ) : List ℚ :=
  (List.range n).map fun i => Dv.getD (i ^^^ 1) 0

/-- Source: `loop_hafnian(mat)`: as `hafnian` but building `C`, `D` and
dispatching the loop-mode worker. -/
def loopHafnianChecked (mat : List ℚ) : Except HafError ℚ :=
  let n := Nat.sqrt mat.length
  if n % 2 = 0 then
    Except.ok (do_chunk_loops mat (Cvec (Dvec mat n) n) (Dvec mat n) n 0 (2 ^ (n / 2)))
  else Except.error HafError.EvenDimensionRequired

/-- Entry `b[r][u]` of a triangular edge-polynomial array (out-of-range
reads default to `0`; the C code never reads out of range on the inputs
considered). -/
def rowGet (b : List (List ℤ)) (r u : ℕ) : ℤ :=
  (b.getD r []).getD u 0

/-- The pairs `(j, k)` with `k < j < t` in the order the nested loops of
the integer engine visit them; the pair `(j, k)` sits at index
`j·(j−1)/2 + k`. -/
def pairsList (t : ℕ) : List (ℕ × ℕ) :=
  (List.range t).flatMap fun j => (List.range j).map fun k => (j, k)

/-- Source: the first loop nest of `recursive_int`: build `c` with
`c[i][u] = b[(j+1)(j+2)/2 + k + 2][u]` for `j = 1 … s−3`, `k = 0 … j−1`,
`u = 0 … n`, where `i` enumerates the pairs in visit order. -/
def reduceArray (b : List (List ℤ)) (s n : ℕ) : List (List ℤ) :=
  (pairsList (s - 2)).map fun p =>
    (List.range (n + 1)).map fun u =>
      rowGet b ((p.1 + 1) * (p.1 + 2) / 2 + p.2 + 2) u

/-- Source: the `e` loop nest of `recursive_int`: `e = g`, then
`e[u+v+1] += g[u] * b[0][v]` for `u < n`, `v < n − u` (all reads are from
the unchanged `g` and `b`, so the update order is immaterial). -/
def augmentG (g : List ℤ) (b : List (List ℤ)) (n : ℕ) : List ℤ :=
  ((List.range n).flatMap fun u => (List.range (n - u)).map fun v => (u, v)).foldl
    (fun e p =>
      e.set (p.1 + p.2 + 1) (e.getD (p.1 + p.2 + 1) 0 + g.getD p.1 0 * rowGet b 0 p.2))
    g

/-- Source: the second loop nest of `recursive_int`:
`c[j(j−1)/2+k][u+v+1] += b[(j+1)(j+2)/2][u]·b[(k+1)(k+2)/2+1][v]
 + b[(k+1)(k+2)/2][u]·b[(j+1)(j+2)/2+1][v]` for `k < j < s−2`, `u < n`,
`v < n − u` (all reads are from the unchanged `b`). -/
def augmentC (c b : List (List ℤ)) (s n : ℕ) : List (List ℤ) :=
  ((pairsList (s - 2)).flatMap fun p =>
      (List.range n).flatMap fun u => (List.range (n - u)).map fun v => (p, u, v)).foldl
    (fun cc q =>
      let r := q.1.1 * (q.1.1 - 1) / 2 + q.1.2
      let d := q.2.1 + q.2.2 + 1
      let add := rowGet b ((q.1.1 + 1) * (q.1.1 + 2) / 2) q.2.1 *
            rowGet b ((q.1.2 + 1) * (q.1.2 + 2) / 2 + 1) q.2.2 +
          rowGet b ((q.1.2 + 1) * (q.1.2 + 2) / 2) q.2.1 *
            rowGet b ((q.1.1 + 1) * (q.1.1 + 2) / 2 + 1) q.2.2
      cc.set r ((cc.getD r []).set d (rowGet cc r d + add)))
    c

/-- Source: `recursive_int(b, s, w, g, n)`.  In the C code `s` decreases by
exactly `2` per call; on `ℕ` the recursion is well-founded because
`s − 2 < s` whenever `s ≠ 0`. -/
def recursive_int (b : List (List ℤ)) (s : ℕ) (w : ℤ) (g : List ℤ) (n : ℕ) : ℤ :=
  if hs : s = 0 then w * g.getD n 0
  else
    let c := reduceArray b s n
    let h := recursive_int c (s - 2) (-w) g n
    h + recursive_int (augmentC c b s n) (s - 2) w (augmentG g b n) n
termination_by s
decreasing_by
  all_goals exact Nat.sub_lt (Nat.pos_of_ne_zero hs) (by decide)

/-- Fuel-indexed variant of `recursive_int`: `none` means the fuel ran out
before the base case `s = 0` was reached.  Used to express termination:
each call strictly decreases `s` by `2`, so `s/2` levels of fuel always
suffice for even `s`. -/
def recursiveF : ℕ → List (List ℤ) → ℕ → ℤ → List ℤ → ℕ → Option ℤ
  | _, _, 0, w, g, n => some (w * g.getD n 0)
  | 0, _, _ + 1, _, _, _ => none
  | fuel + 1, b, s + 1, w, g, n =>
      match recursiveF fuel (reduceArray b (s + 1) n) (s + 1 - 2) (-w) g n with
      | none => none
      | some h =>
        match recursiveF fuel (augmentC (reduceArray b (s + 1) n) b (s + 1) n)
            (s + 1 - 2) w (augmentG g b n) n with
        | none => none
        | some h2 => some (h + h2)

/-- Source: the seeding loop of `hafnian_int`:
`z[j(j−1)/2+k][0] = mat[2jn + k]` for `j = 1 … 2n−1`, `k = 0 … j−1`, all
other coefficients zero (rows have length `n+1`). -/
def seedArray (mat : List ℤ) (n : ℕ) : List (List ℤ) :=
  (pairsList (2 * n)).map fun p =>
    mat.getD (2 * p.1 * n + p.2) 0 :: List.replicate n 0

/-- Source: `hafnian_int(mat)`: `n = √|mat| / 2`, seed the triangular
array and `g = [1, 0, …, 0]`, then call the engine at `s = 2n`, `w = 1`,
degree bound `n`. -/
def hafnian_int (mat : List ℤ) : ℤ :=
  let n := Nat.sqrt mat.length / 2
  recursive_int (seedArray mat n) (2 * n) 1 (1 :: List.replicate n 0) n

/-- Source: `hafnian_int` performs no precondition check at all; it is
wrapped in `Except` only for comparability with the other entry points. -/
def hafnianIntChecked (mat : List ℤ) : Except HafError ℤ :=
  Except.ok (hafnian_int mat)

/-- Spec-side series: coefficient of `z^d` in `exp(a·z^i)` (for `i ≥ 1`),
namely `a^(d/i) / (d/i)!` when `i ∣ d` and `0` otherwise. -/
def expSeriesCoeff (a : ℚ) (i d : ℕ) : ℚ :=
  if i ∣ d then a ^ (d / i) / (Nat.factorial (d / i) : ℚ) else 0

/-- Spec-side series: coefficient of `z^d` in the formal power-series
product `Π_{i' ≤ i} exp(τ[i'−1]·z^{i'} / (2i'))`, by iterated Cauchy
convolution (for `d ≤ m` this agrees with the product truncated at
degree `m`, since a degree-`d` coefficient only involves coefficients of
degree `≤ d` of each factor). -/
def specSeriesCoeff (tau : List ℚ) : ℕ → ℕ → ℚ
  | 0, d => if d = 0 then 1 else 0
  | i + 1, d => ∑ e ∈ Finset.range (d + 1),
      specSeriesCoeff tau i (d - e) *
        expSeriesCoeff (tau.getD i 0 / (2 * (i + 1))) (i + 1) e

/-- Claim C7's description of the seeded array: constant terms only for
pairs with `1 ≤ j < n`, everything else zero. -/
def claimSeedArray (mat : List ℤ) (n : ℕ) : List (List ℤ) :=
  (pairsList (2 * n)).map fun p =>
    if 1 ≤ p.1 ∧ p.1 < n then mat.getD (2 * p.1 * n + p.2) 0 :: List.replicate n 0
    else List.replicate (n + 1) 0

/-- Claim C8's description of the reduced array: rows copied from `b` only
for pairs with `1 ≤ k < j`, everything else zero. -/
def claimReduceArray (b : List (List ℤ)) (s n : ℕ) : List (List ℤ) :=
  (pairsList (s - 2)).map fun p =>
    if 1 ≤ p.2 then
      (List.range (n + 1)).map fun u =>
        rowGet b ((p.1 + 1) * (p.1 + 2) / 2 + p.2 + 2) u
    else List.replicate (n + 1) 0

theorem foldl_add_eq_sum {M : Type} [AddCommMonoid M] (f : ℕ → M) :
    ∀ (l : List ℕ) (init : M),
      l.foldl (fun r x => r + f x) init = init + (l.map f).sum := by
  intro l
  induction l with
  | nil => intro init; simp
  | cons a t ih => intro init; simp [ih, add_assoc]

theorem sum_range'_eq_sum_Ico {M : Type} [AddCommMonoid M] (f : ℕ → M) (X : ℕ) :
    ∀ C, ((List.range' X C).map f).sum = ∑ x ∈ Finset.Ico X (X + C), f x := by
  intro C
  induction C with
  | zero => simp
  | succ C ih =>
      rw [List.range'_1_concat, List.map_append, List.sum_append,
        ← Nat.add_assoc, Finset.sum_Ico_succ_top (Nat.le_add_right X C), ih]
      simp

/-- Claim C1 (amended): the plain chunk worker returns
`Σ_{x=X}^{X+C−1} summand(x)`, while the loop-mode worker iterates over the
window `[X·C, (X+1)·C)`, returning `Σ_{x=X·C}^{(X+1)·C−1} summand(x)`. -/
theorem chunk_worker_ranges (mat Cv Dv : List ℚ) (n X C : ℕ) :
    do_chunk mat n X C = ∑ x ∈ Finset.Ico X (X + C), summand mat n x ∧
    do_chunk_loops mat Cv Dv n X C =
      ∑ x ∈ Finset.Ico (X * C) (X * C + C), loopSummand mat Cv Dv n x := by
  constructor
  · rw [do_chunk, foldl_add_eq_sum, sum_range'_eq_sum_Ico, zero_add]
  · rw [do_chunk_loops, foldl_add_eq_sum, sum_range'_eq_sum_Ico, zero_add]

theorem list_foldl_add {M : Type} [AddCommMonoid M] :
    ∀ (l : List M) (init : M), l.foldl (· + ·) init = init + l.sum := by
  intro l
  induction l with
  | nil => intro init; simp
  | cons a t ih => intro init; simp [ih, add_assoc]

theorem list_sum_eq_sum_getD {M : Type} [AddCommMonoid M] :
    ∀ l : List M, l.sum = ∑ j ∈ Finset.range l.length, l.getD j 0 := by
  intro l
  induction l with
  | nil => simp
  | cons a t ih => rw [List.sum_cons, List.length_cons, Finset.sum_range_succ', ih]; simp [add_comm]

theorem zipWith_mul_getD {R : Type} [Mul R] [Zero R] :
    ∀ (p v : List R) (j : ℕ), j < p.length → j < v.length →
      (List.zipWith (· * ·) p v).getD j 0 = p.getD j 0 * v.getD j 0 := by
  intro p
  induction p with
  | nil => intro v j h; simp at h
  | cons a t ih =>
      intro v j hp hv
      cases v with
      | nil => simp at hv
      | cons b u =>
          cases j with
          | zero => simp
          | succ j =>
              simp only [List.zipWith_cons_cons, List.getD_cons_succ]
              exact ih u j (Nat.lt_of_succ_lt_succ hp) (Nat.lt_of_succ_lt_succ hv)

theorem powtraceGo_length {R : Type} [Zero R] [Add R] [Mul R] (vals : List R) :
    ∀ (l : ℕ) (pvals : List R), (powtraceGo vals l pvals).length = l := by
  intro l
  induction l with
  | zero => intro pvals; rfl
  | succ l ih => intro pvals; simp [powtraceGo, ih]

theorem powtraceGo_getD {R : Type} [CommRing R] (vals : List R) :
    ∀ (l : ℕ) (pvals : List R), pvals.length = vals.length → ∀ k, k < l →
      (powtraceGo vals l pvals).getD k 0 =
        ∑ j ∈ Finset.range vals.length, pvals.getD j 0 * vals.getD j 0 ^ k := by
  intro l
  induction l with
  | zero => intro pvals _ k hk; exact absurd hk (Nat.not_lt_zero k)
  | succ l ih =>
      intro pvals hlen k hk
      cases k with
      | zero =>
          simp only [powtraceGo, List.getD_cons_zero, list_foldl_add, zero_add,
            list_sum_eq_sum_getD, hlen]
          exact Finset.sum_congr rfl (fun j _ => by rw [pow_zero, mul_one])
      | succ k =>
          simp only [powtraceGo, List.getD_cons_succ]
          rw [ih (List.zipWith (· * ·) pvals vals) (by simp [hlen]) k
            (Nat.lt_of_succ_lt_succ hk)]
          refine Finset.sum_congr rfl (fun j hj => ?_)
          rw [zipWith_mul_getD pvals vals j (by rw [hlen]; exact Finset.mem_range.mp hj)
            (Finset.mem_range.mp hj), pow_succ]
          ring

theorem powtraceDGo_eq_map (vals : List CQ) :
    ∀ (l : ℕ) (pvals : List CQ),
      powtraceDGo vals l pvals = (powtraceGo vals l pvals).map CQ.re := by
  intro l
  induction l with
  | zero => intro pvals; rfl
  | succ l ih => intro pvals; simp only [powtraceDGo, powtraceGo, List.map_cons, ih]

theorem getD_map_re :
    ∀ (l : List CQ) (k : ℕ), (l.map CQ.re).getD k 0 = (l.getD k 0).re := by
  intro l
  induction l with
  | nil => intro k; rfl
  | cons a t ih =>
      intro k
      cases k with
      | zero => rfl
      | succ k => simp only [List.map_cons, List.getD_cons_succ, ih]

theorem re_sum (s : Finset ℕ) (f : ℕ → CQ) : (∑ j ∈ s, f j).re = ∑ j ∈ s, (f j).re := by
  exact map_sum (⟨⟨CQ.re, rfl⟩, fun a b => rfl⟩ : CQ →+ ℚ) f s

/-- Claim C4: for every eigenvalue list `λ` and every `l ≥ 0` the power-trace
loop returns a length-`l` list with `traces[k−1] = Σ_j λ_j^k` for
`k = 1 … l` (all zeros when the list is empty), and the real-matrix
overload returns the real part of each power sum. -/
theorem powtrace_contract :
    (∀ (R : Type) [CommRing R], ∀ (vals : List R) (l : ℕ),
        (powtrace vals l).length = l ∧
        (∀ k, k < l → (powtrace vals l).getD k 0 =
          ∑ j ∈ Finset.range vals.length, vals.getD j 0 ^ (k + 1)) ∧
        (vals = [] → ∀ k, k < l → (powtrace vals l).getD k 0 = 0)) ∧
    (∀ (vals : List CQ) (l : ℕ),
        powtrace_d vals l = (powtrace vals l).map CQ.re ∧
        (∀ k, k < l → (powtrace_d vals l).getD k 0 =
          (∑ j ∈ Finset.range vals.length, vals.getD j 0 ^ (k + 1)).re)) := by
  have main : ∀ (R : Type) [CommRing R], ∀ (vals : List R) (l : ℕ), ∀ k, k < l →
      (powtrace vals l).getD k 0 =
        ∑ j ∈ Finset.range vals.length, vals.getD j 0 ^ (k + 1) := by
    intro R _ vals l k hk
    rw [powtrace, powtraceGo_getD vals l vals rfl k hk]
    exact Finset.sum_congr rfl (fun j _ => by rw [pow_succ, mul_comm])
  constructor
  · intro R _ vals l
    refine ⟨powtraceGo_length vals l vals, main R vals l, ?_⟩
    intro hnil k hk
    rw [main R vals l k hk, hnil]
    simp
  · intro vals l
    have hmap : powtrace_d vals l = (powtrace vals l).map CQ.re :=
      powtraceDGo_eq_map vals l vals
    refine ⟨hmap, fun k hk => ?_⟩
    rw [hmap, getD_map_re, main CQ vals l k hk, re_sum]

unseal Rat.add Rat.mul Rat.inv Rat.sub in
/-- Claim C4 witness: concrete instances of the contract, at `λ = [2, 3]`
over `ℚ` with `l = 2`, and at `λ = [i, −i]` for the real overload. -/
theorem powtrace_contract_witness :
    (1 : ℕ) < 2 ∧
    (powtrace ([2, 3] : List ℚ) 2).getD 1 0 =
      ∑ j ∈ Finset.range 2, (([2, 3] : List ℚ).getD j 0) ^ 2 ∧
    (powtrace_d [⟨0, 1⟩, ⟨0, -1⟩] 2).getD 1 0 =
      (∑ j ∈ Finset.range 2, (([⟨0, 1⟩, ⟨0, -1⟩] : List CQ).getD j 0) ^ 2).re :=
  ⟨by decide, (powtrace_contract.1 ℚ [2, 3] 2).2.1 1 (by decide),
    (powtrace_contract.2 [⟨0, 1⟩, ⟨0, -1⟩] 2).2 1 (by decide)⟩

theorem find2Go_length :
    ∀ (dst : List ℕ) (i0 : ℕ), (find2Go i0 dst).length = 2 * dst.count 1 := by
  intro dst
  induction dst with
  | nil => intro i0; rfl
  | cons d rest ih =>
      intro i0
      by_cases h : d = 1
      · have hc : (d :: rest).count 1 = rest.count 1 + 1 := by
          simp [List.count_cons, h]
        rw [find2Go, if_pos h, List.length_cons, List.length_cons, ih, hc]
        omega
      · have hc : (d :: rest).count 1 = rest.count 1 := by
          simp [List.count_cons, h]
        rw [find2Go, if_neg h, ih, hc]

theorem find2Go_lower :
    ∀ (dst : List ℕ) (i0 e : ℕ), e ∈ find2Go i0 dst → 2 * i0 ≤ e := by
  intro dst
  induction dst with
  | nil => intro i0 e h; simp [find2Go] at h
  | cons d rest ih =>
      intro i0 e h
      by_cases hd : d = 1
      · rw [find2Go, if_pos hd] at h
        rcases List.mem_cons.mp h with h1 | h'
        · omega
        · rcases List.mem_cons.mp h' with h2 | h''
          · omega
          · have := ih (i0 + 1) e h''
            omega
      · rw [find2Go, if_neg hd] at h
        have := ih (i0 + 1) e h
        omega

theorem find2Go_pairwise :
    ∀ (dst : List ℕ) (i0 : ℕ), List.Pairwise (· < ·) (find2Go i0 dst) := by
  intro dst
  induction dst with
  | nil => intro i0; exact List.Pairwise.nil
  | cons d rest ih =>
      intro i0
      by_cases hd : d = 1
      · rw [find2Go, if_pos hd]
        refine List.Pairwise.cons ?_ (List.Pairwise.cons ?_ (ih (i0 + 1)))
        · intro e he
          rcases List.mem_cons.mp he with h1 | h'
          · omega
          · have := find2Go_lower rest (i0 + 1) e h'
            omega
        · intro e he
          have := find2Go_lower rest (i0 + 1) e he
          omega
      · rw [find2Go, if_neg hd]
        exact ih (i0 + 1)

theorem find2Go_mem_of :
    ∀ (dst : List ℕ) (i0 t : ℕ), t < dst.length → dst.getD t 0 = 1 →
      2 * (i0 + t) ∈ find2Go i0 dst ∧ 2 * (i0 + t) + 1 ∈ find2Go i0 dst := by
  intro dst
  induction dst with
  | nil => intro i0 t ht; simp at ht
  | cons d rest ih =>
      intro i0 t ht hget
      cases t with
      | zero =>
          have hd : d = 1 := by simpa using hget
          rw [find2Go, if_pos hd]
          constructor
          · exact List.mem_cons_self _ _
          · exact List.mem_cons_of_mem _ (List.mem_cons_self _ _)
      | succ t =>
          have ht' : t < rest.length := Nat.lt_of_succ_lt_succ ht
          have hget' : rest.getD t 0 = 1 := by simpa using hget
          have hmem := ih (i0 + 1) t ht' hget'
          have harg : i0 + 1 + t = i0 + (t + 1) := by omega
          rw [harg] at hmem
          by_cases hd : d = 1
          · rw [find2Go, if_pos hd]
            exact ⟨List.mem_cons_of_mem _ (List.mem_cons_of_mem _ hmem.1),
              List.mem_cons_of_mem _ (List.mem_cons_of_mem _ hmem.2)⟩
          · rw [find2Go, if_neg hd]
            exact hmem

theorem find2Go_sibling :
    ∀ (dst : List ℕ) (i0 t e : ℕ), (find2Go i0 dst)[t]? = some e → e % 2 = 0 →
      (find2Go i0 dst)[t + 1]? = some (e + 1) := by
  intro dst
  induction dst with
  | nil => intro i0 t e h; simp [find2Go] at h
  | cons d rest ih =>
      intro i0 t e h heven
      by_cases hd : d = 1
      · rw [find2Go, if_pos hd] at h ⊢
        match t, h with
        | 0, h =>
            have : e = 2 * i0 := by simpa using h.symm
            subst this
            simp
        | 1, h =>
            have : e = 2 * i0 + 1 := by simpa using h.symm
            omega
        | t + 2, h =>
            have h' : (find2Go (i0 + 1) rest)[t]? = some e := by simpa using h
            simpa using ih (i0 + 1) t e h' heven
      · rw [find2Go, if_neg hd] at h ⊢
        exact ih (i0 + 1) t e h heven

theorem dec2bin_length (x m : ℕ) : (dec2bin x m).length = m := by
  simp [dec2bin]

theorem dec2bin_getD (x m t : ℕ) (ht : t < m) :
    (dec2bin x m).getD t 0 = if x.testBit (m - 1 - t) then 1 else 0 := by
  have h1 : (dec2bin x m)[t]? = some ((x >>> (m - 1 - t)) &&& 1) := by
    rw [dec2bin, List.getElem?_map, List.getElem?_range ht]
    rfl
  rw [List.getD_eq_getElem?_getD, h1]
  rw [Nat.and_one_is_mod, Nat.shiftRight_eq_div_pow, Nat.testBit_to_div_mod]
  by_cases hb : x / 2 ^ (m - 1 - t) % 2 = 1
  · simp [hb]
  · have : x / 2 ^ (m - 1 - t) % 2 = 0 := by omega
    simp [this, hb]

theorem countP_range_eq_card_filter (p : ℕ → Bool) :
    ∀ m, (List.range m).countP p = ((Finset.range m).filter (fun t => p t = true)).card := by
  intro m
  induction m with
  | zero => rfl
  | succ m ih =>
      rw [List.range_succ, List.countP_append, ih, Finset.range_succ, Finset.filter_insert]
      by_cases h : p m = true
      · rw [if_pos h, Finset.card_insert_of_not_mem (by simp)]
        simp [List.countP_cons, h]
      · rw [if_neg h]
        simp [List.countP_cons, h]

theorem dec2bin_count (x m : ℕ) : (dec2bin x m).count 1 = (Sx m x).card := by
  rw [dec2bin, List.count_eq_countP, List.countP_map]
  have hpt : ∀ t ∈ List.range m,
      ((fun a => a == 1) ∘ fun t => (x >>> (m - 1 - t)) &&& 1) t =
        Nat.testBit x (m - 1 - t) := by
    intro t _
    show (((x >>> (m - 1 - t)) &&& 1) == 1) = Nat.testBit x (m - 1 - t)
    rw [Nat.and_one_is_mod, Nat.shiftRight_eq_div_pow, Nat.testBit_to_div_mod]
    by_cases hb : x / 2 ^ (m - 1 - t) % 2 = 1
    · simp [hb]
    · have h0 : x / 2 ^ (m - 1 - t) % 2 = 0 := by omega
      simp [h0]
  rw [List.countP_congr (fun t htm => by rw [hpt t htm]), countP_range_eq_card_filter]
  rw [Sx]
  refine Finset.card_nbij' (fun t => m - 1 - t) (fun t => m - 1 - t) ?_ ?_ ?_ ?_
  · intro a ha
    simp only [Finset.mem_filter, Finset.mem_range] at ha ⊢
    exact ⟨by omega, ha.2⟩
  · intro a ha
    simp only [Finset.mem_filter, Finset.mem_range] at ha ⊢
    refine ⟨by omega, ?_⟩
    have : m - 1 - (m - 1 - a) = a := by omega
    rw [this]
    exact ha.2
  · intro a ha
    simp only [Finset.mem_filter, Finset.mem_range] at ha
    show m - 1 - (m - 1 - a) = a
    omega
  · intro a ha
    simp only [Finset.mem_filter, Finset.mem_range] at ha
    show m - 1 - (m - 1 - a) = a
    omega

/-- Claim C6 (amended): `pos(x)` has length `2·|S(x)|`, is strictly
increasing, every even entry is immediately followed by its odd sibling,
and for every set bit `i` of `x` (with `i < m`) it contains
`2·(m−1−i)` and `2·(m−1−i)+1` — the code stores the binary digits most
significant first, so bit `i` lands at string position `m−1−i`. -/
theorem pos_list_structure (m x : ℕ) :
    (posList m x).length = 2 * (Sx m x).card ∧
    List.Pairwise (· < ·) (posList m x) ∧
    (∀ t e, (posList m x)[t]? = some e → e % 2 = 0 →
      (posList m x)[t + 1]? = some (e + 1)) ∧
    (∀ i, i < m → x.testBit i = true →
      2 * (m - 1 - i) ∈ posList m x ∧ 2 * (m - 1 - i) + 1 ∈ posList m x) := by
  refine ⟨?_, find2Go_pairwise _ 0, fun t e => find2Go_sibling _ 0 t e, ?_⟩
  · rw [posList, find2, find2Go_length, dec2bin_count]
  · intro i hi hbit
    have ht : m - 1 - i < (dec2bin x m).length := by rw [dec2bin_length]; omega
    have hget : (dec2bin x m).getD (m - 1 - i) 0 = 1 := by
      rw [dec2bin_getD x m _ (by omega)]
      have : m - 1 - (m - 1 - i) = i := by omega
      rw [this, hbit]
      rfl
    have := find2Go_mem_of (dec2bin x m) 0 (m - 1 - i) ht hget
    simpa using this

/-- Claim C6 witness: at `m = 2`, `x = 1`, bit `0` is set and the theorem
places `2·(2−1−0) = 2` and `3` in the position list. -/
theorem pos_list_structure_witness :
    (0 : ℕ) < 2 ∧ Nat.testBit 1 0 = true ∧
    2 * (2 - 1 - 0) ∈ posList 2 1 ∧ 2 * (2 - 1 - 0) + 1 ∈ posList 2 1 :=
  ⟨by decide, by decide, ((pos_list_structure 2 1).2.2.2 0 (by decide) (by decide)).1,
    ((pos_list_structure 2 1).2.2.2 0 (by decide) (by decide)).2⟩

/-- Claim C6 as stated is false: at `m = 2`, `x = 1`, bit `0` of `x` is set
but `pos(x) = [2, 3]` does not contain `2·0 = 0` (the decoder stores the
binary string most significant digit first, reversing bit positions). -/
theorem pos_list_bit_cex :
    Nat.testBit 1 0 = true ∧ (2 * 0 ∉ posList 2 1) := by
  decide

/-- Claim C3 (amended): the summand for `x` is the extracted coefficient
taken with positive sign exactly when `|S(x)|` (not `|S(x)|/2`) has the
same parity as `m`; the code's `sum/2` equals `|S(x)|` because
`sum = 2·|S(x)|` is twice the popcount. -/
theorem summand_sign_rule (mat : List ℚ) (n x : ℕ) :
    summand mat n x =
      if (Sx (n / 2) x).card % 2 = n / 2 % 2
      then extractVal (combState (tracesOf mat n x) (n / 2) (n / 2)) (n / 2)
      else -extractVal (combState (tracesOf mat n x) (n / 2) (n / 2)) (n / 2) := by
  have hlen : (posList (n / 2) x).length = 2 * (Sx (n / 2) x).card := by
    rw [posList, find2, find2Go_length, dec2bin_count]
  have hdiv : (posList (n / 2) x).length / 2 = (Sx (n / 2) x).card := by
    rw [hlen]; omega
  simp only [summand, hdiv]

unseal Rat.add Rat.mul Rat.inv Rat.sub in
/-- Claim C3 as stated is false: on the all-ones `4×4` matrix at `x = 3`
we have `|S(x)| = 2`, `m = 2`; the code takes the positive sign
(`|S(x)| ≡ m (mod 2)`), yet the claim's rule `|S(x)|/2 ≡ m (mod 2)` picks
the negative sign, and the summand is `6 ≠ −6`. -/
theorem summand_sign_cex :
    summand (List.replicate 16 1) 4 3 ≠
      (if (Sx 2 3).card / 2 % 2 = 2 % 2
        then extractVal (combState (tracesOf (List.replicate 16 1) 4 3) 2 2) 2
        else -extractVal (combState (tracesOf (List.replicate 16 1) 4 3) 2 2) 2) := by
  decide

theorem pf_step (a : ℚ) (J : ℕ) :
    a ^ J / (Nat.factorial J : ℚ) * a / ((1 + J : ℕ) : ℚ) =
      a ^ (J + 1) / (Nat.factorial (J + 1) : ℚ) := by
  rw [Nat.factorial_succ, pow_succ]
  rw [div_mul_eq_mul_div, div_div]
  push_cast
  rw [mul_comm ((Nat.factorial J : ℚ)) (1 + (J : ℚ))]
  congr 1
  ring

theorem combInner_aux (oldrow : ℕ → ℚ) (i m : ℕ) (factor : ℚ) :
    ∀ J : ℕ,
      ((List.range' 1 J).foldl (innerStep oldrow i m factor) (oldrow, 1)).2 =
        factor ^ J / (Nat.factorial J : ℚ) ∧
      ∀ d : ℕ,
        ((List.range' 1 J).foldl (innerStep oldrow i m factor) (oldrow, 1)).1 d =
          oldrow d + ∑ j ∈ Finset.Icc 1 J,
            (if i * j ≤ d ∧ d ≤ m
              then oldrow (d - i * j) * (factor ^ j / (Nat.factorial j : ℚ)) else 0) := by
  intro J
  induction J with
  | zero =>
      constructor
      · simp [Nat.factorial]
      · intro d
        have : Finset.Icc 1 0 = (∅ : Finset ℕ) := by rfl
        simp [this]
  | succ J ih =>
      have hconcat : List.range' 1 (J + 1) = List.range' 1 J ++ [1 + J] :=
        List.range'_1_concat 1 J
      have hfold :
          (List.range' 1 (J + 1)).foldl (innerStep oldrow i m factor) (oldrow, 1) =
            innerStep oldrow i m factor
              ((List.range' 1 J).foldl (innerStep oldrow i m factor) (oldrow, 1))
              (1 + J) := by
        rw [hconcat, List.foldl_append, List.foldl_cons, List.foldl_nil]
      have hpf :
          ((List.range' 1 (J + 1)).foldl (innerStep oldrow i m factor) (oldrow, 1)).2 =
            factor ^ (J + 1) / (Nat.factorial (J + 1) : ℚ) := by
        rw [hfold, innerStep, ih.1]
        exact pf_step factor J
      refine ⟨hpf, ?_⟩
      intro d
      have hrow :
          ((List.range' 1 (J + 1)).foldl (innerStep oldrow i m factor) (oldrow, 1)).1 d =
            (if i * (1 + J) ≤ d ∧ d ≤ m
              then ((List.range' 1 J).foldl (innerStep oldrow i m factor) (oldrow, 1)).1 d +
                oldrow (d - i * (1 + J)) *
                  (((List.range' 1 J).foldl (innerStep oldrow i m factor) (oldrow, 1)).2 *
                    factor / ((1 + J : ℕ) : ℚ))
              else ((List.range' 1 J).foldl (innerStep oldrow i m factor) (oldrow, 1)).1 d) := by
        rw [hfold]
        rfl
      have hpf' :
          ((List.range' 1 J).foldl (innerStep oldrow i m factor) (oldrow, 1)).2 *
              factor / ((1 + J : ℕ) : ℚ) =
            factor ^ (J + 1) / (Nat.factorial (J + 1) : ℚ) := by
        rw [ih.1]
        exact pf_step factor J
      rw [hrow, Finset.sum_Icc_succ_top (Nat.le_add_left 1 J)]
      have harg : 1 + J = J + 1 := Nat.add_comm 1 J
      by_cases hc : i * (J + 1) ≤ d ∧ d ≤ m
      · rw [if_pos (by rw [harg]; exact hc), if_pos hc, ih.2 d, hpf', harg]
        ring
      · rw [if_neg (by rw [harg]; exact hc), if_neg hc, ih.2 d, add_zero]

theorem combInner_closed (oldrow : ℕ → ℚ) (i m : ℕ) (factor : ℚ) (d : ℕ) :
    (combInner oldrow i m factor).1 d =
      oldrow d + ∑ j ∈ Finset.Icc 1 (m / i),
        (if i * j ≤ d ∧ d ≤ m
          then oldrow (d - i * j) * (factor ^ j / (Nat.factorial j : ℚ)) else 0) :=
  (combInner_aux oldrow i m factor (m / i)).2 d

theorem combState_eq_chain (tau : List ℚ) (m : ℕ) :
    ∀ i, combState tau m i =
      (if i % 2 = 0
        then (combChain tau m i,
          if i = 0 then (fun _ => (0 : ℚ)) else combChain tau m (i - 1))
        else (combChain tau m (i - 1), combChain tau m i)) := by
  intro i
  induction i with
  | zero => rfl
  | succ i ih =>
      rw [combState, combStep, ih]
      rcases Nat.even_or_odd i with he | ho
      · have h0 : i % 2 = 0 := Nat.even_iff.mp he
        have h1 : (i + 1) % 2 = 1 := by omega
        simp only [h0, h1, combChain]
        simp
      · have h1 : i % 2 = 1 := Nat.odd_iff.mp ho
        have h0 : (i + 1) % 2 = 0 := by omega
        simp only [h1, h0, combChain]
        simp

theorem currentRow_eq_chain (tau : List ℚ) (m i : ℕ) (hi : 1 ≤ i) :
    currentRow tau m i = combChain tau m i := by
  rw [currentRow, combState_eq_chain, cntindexAfter]
  rcases Nat.even_or_odd i with he | ho
  · have h0 : i % 2 = 0 := Nat.even_iff.mp he
    have hne : ¬ i = 0 := by omega
    simp only [h0, hne]
    simp
  · have h1 : i % 2 = 1 := Nat.odd_iff.mp ho
    have hne : ¬ i = 0 := by omega
    simp only [h1, hne]
    simp

theorem combChain_eq_spec (tau : List ℚ) (m : ℕ) :
    ∀ i d, d ≤ m → combChain tau m i d = specSeriesCoeff tau i d := by
  intro i
  induction i with
  | zero => intro d _; rfl
  | succ i ih =>
      intro d hd
      have hip : 0 < i + 1 := Nat.succ_pos i
      have hfac : tau.getD (i + 1 - 1) 0 / (2 * ((i + 1 : ℕ) : ℚ)) =
          tau.getD i 0 / (2 * ((i : ℚ) + 1)) := by
        rw [Nat.add_sub_cancel]
        push_cast
        ring
      simp only [combChain]
      rw [combInner_closed, hfac]
      set a : ℚ := tau.getD i 0 / (2 * ((i : ℚ) + 1)) with ha
      simp only [specSeriesCoeff]
      rw [Finset.sum_range_succ']
      have h0term : specSeriesCoeff tau i (d - 0) * expSeriesCoeff a (i + 1) 0 =
          specSeriesCoeff tau i d := by
        have h1 : expSeriesCoeff a (i + 1) 0 = 1 := by
          rw [expSeriesCoeff, if_pos (dvd_zero _)]
          simp [Nat.factorial]
        rw [h1, Nat.sub_zero, mul_one]
      rw [h0term, ih d hd]
      have hDle : d / (i + 1) ≤ m / (i + 1) := Nat.div_le_div_right hd
      have hcond : ∀ j : ℕ, ((i + 1) * j ≤ d ∧ d ≤ m) ↔ j ≤ d / (i + 1) := by
        intro j
        constructor
        · rintro ⟨h1, _⟩
          exact (Nat.le_div_iff_mul_le hip).mpr (by rw [Nat.mul_comm]; exact h1)
        · intro hj
          refine ⟨?_, hd⟩
          have h2 := (Nat.le_div_iff_mul_le hip).mp hj
          calc (i + 1) * j = j * (i + 1) := Nat.mul_comm _ _
            _ ≤ d := h2
      have hsum : (∑ j ∈ Finset.Icc 1 (m / (i + 1)),
          if (i + 1) * j ≤ d ∧ d ≤ m
            then combChain tau m i (d - (i + 1) * j) * (a ^ j / (Nat.factorial j : ℚ))
            else 0) =
          ∑ e ∈ Finset.range d,
            specSeriesCoeff tau i (d - (e + 1)) * expSeriesCoeff a (i + 1) (e + 1) := by
        have hfilter : (Finset.Icc 1 (m / (i + 1))).filter
            (fun j => (i + 1) * j ≤ d ∧ d ≤ m) = Finset.Icc 1 (d / (i + 1)) := by
          apply Finset.ext
          intro j
          simp only [Finset.mem_filter, Finset.mem_Icc]
          constructor
          · rintro ⟨⟨hj1, _⟩, hc⟩
            exact ⟨hj1, (hcond j).mp hc⟩
          · rintro ⟨hj1, hjD⟩
            exact ⟨⟨hj1, le_trans hjD hDle⟩, (hcond j).mpr hjD⟩
        rw [← Finset.sum_filter, hfilter]
        have hih : ∀ j ∈ Finset.Icc 1 (d / (i + 1)),
            combChain tau m i (d - (i + 1) * j) * (a ^ j / (Nat.factorial j : ℚ)) =
              specSeriesCoeff tau i (d - (i + 1) * j) *
                (a ^ j / (Nat.factorial j : ℚ)) := by
          intro j _
          rw [ih _ (le_trans (Nat.sub_le d _) hd)]
        rw [Finset.sum_congr rfl hih]
        have hterm : ∀ e ∈ Finset.range d,
            specSeriesCoeff tau i (d - (e + 1)) * expSeriesCoeff a (i + 1) (e + 1) =
              if (i + 1) ∣ (e + 1)
                then specSeriesCoeff tau i (d - (e + 1)) *
                  (a ^ ((e + 1) / (i + 1)) /
                    (Nat.factorial ((e + 1) / (i + 1)) : ℚ))
                else 0 := by
          intro e _
          rw [expSeriesCoeff]
          by_cases hdvd : (i + 1) ∣ (e + 1)
          · rw [if_pos hdvd, if_pos hdvd]
          · rw [if_neg hdvd, if_neg hdvd, mul_zero]
        rw [Finset.sum_congr rfl hterm, ← Finset.sum_filter]
        refine Finset.sum_nbij' (fun j => (i + 1) * j - 1) (fun e => (e + 1) / (i + 1))
          ?_ ?_ ?_ ?_ ?_
        · intro j hj
          simp only [Finset.mem_Icc] at hj
          have hle : (i + 1) * j ≤ d := ((hcond j).mpr hj.2).1
          have hge : 1 ≤ (i + 1) * j := by
            have := Nat.mul_le_mul hip hj.1
            omega
          simp only [Finset.mem_filter, Finset.mem_range]
          constructor
          · omega
          · have : (i + 1) * j - 1 + 1 = (i + 1) * j := by omega
            rw [this]
            exact Dvd.intro j rfl
        · intro e he
          simp only [Finset.mem_filter, Finset.mem_range] at he
          simp only [Finset.mem_Icc]
          constructor
          · rw [Nat.one_le_div_iff hip]
            exact Nat.le_of_dvd (Nat.succ_pos e) he.2
          · exact Nat.div_le_div_right (by omega)
        · intro j hj
          simp only [Finset.mem_Icc] at hj
          have hge : 1 ≤ (i + 1) * j := by
            have := Nat.mul_le_mul hip hj.1
            omega
          have h1 : (i + 1) * j - 1 + 1 = (i + 1) * j := by omega
          show ((i + 1) * j - 1 + 1) / (i + 1) = j
          rw [h1, Nat.mul_div_cancel_left j hip]
        · intro e he
          simp only [Finset.mem_filter, Finset.mem_range] at he
          have h2 := Nat.mul_div_cancel' he.2
          show (i + 1) * ((e + 1) / (i + 1)) - 1 = e
          omega
        · intro j hj
          simp only [Finset.mem_Icc] at hj
          have hge : 1 ≤ (i + 1) * j := by
            have := Nat.mul_le_mul hip hj.1
            omega
          have h1 : (i + 1) * j - 1 + 1 = (i + 1) * j := by omega
          show specSeriesCoeff tau i (d - (i + 1) * j) *
              (a ^ j / (Nat.factorial j : ℚ)) =
            specSeriesCoeff tau i (d - ((i + 1) * j - 1 + 1)) *
              (a ^ (((i + 1) * j - 1 + 1) / (i + 1)) /
                (Nat.factorial (((i + 1) * j - 1 + 1) / (i + 1)) : ℚ))
          rw [h1, Nat.mul_div_cancel_left j hip]
      rw [hsum]
      ring

/-- Claim C2: in the subset worker's generating-function fold (exact
arithmetic), after processing trace index `i ∈ 1 … m` the current comb row
holds, up to degree `m`, the coefficients of the truncated product
`Π_{i' ≤ i} exp(τ[i'−1]·z^{i'} / (2i'))`, and after `i = m` the worker
extracts the `z^m` coefficient of that product. -/
theorem comb_invariant_spec :
    (∀ (mat : List ℚ) (n x i d : ℕ), 1 ≤ i → i ≤ n / 2 → d ≤ n / 2 →
        currentRow (tracesOf mat n x) (n / 2) i d =
          specSeriesCoeff (tracesOf mat n x) i d) ∧
    (∀ (mat : List ℚ) (n x : ℕ), 1 ≤ n / 2 →
        extractVal (combState (tracesOf mat n x) (n / 2) (n / 2)) (n / 2) =
          specSeriesCoeff (tracesOf mat n x) (n / 2) (n / 2)) := by
  constructor
  · intro mat n x i d hi _ hd
    rw [currentRow_eq_chain _ _ _ hi, combChain_eq_spec _ _ _ _ hd]
  · intro mat n x hm
    have hext : extractVal (combState (tracesOf mat n x) (n / 2) (n / 2)) (n / 2) =
        currentRow (tracesOf mat n x) (n / 2) (n / 2) (n / 2) := rfl
    rw [hext, currentRow_eq_chain _ _ _ hm,
      combChain_eq_spec _ _ _ _ (le_refl (n / 2))]

unseal Rat.add Rat.mul Rat.inv Rat.sub in
/-- Claim C2 witness: on the all-ones `4×4` matrix at `x = 3`, after trace
index `i = 2` the current row's degree-2 coefficient equals the series
coefficient (both are `6`). -/
theorem comb_invariant_spec_witness :
    ((1 : ℕ) ≤ 2 ∧ 2 ≤ 4 / 2 ∧ 2 ≤ 4 / 2) ∧
    currentRow (tracesOf (List.replicate 16 1) 4 3) (4 / 2) 2 2 =
      specSeriesCoeff (tracesOf (List.replicate 16 1) 4 3) 2 2 :=
  ⟨⟨by decide, by decide, by decide⟩,
    comb_invariant_spec.1 (List.replicate 16 1) 4 3 2 2 (by decide) (by decide) (by decide)⟩

theorem loopState_snd_of_D1_zero {s : ℕ} (B : Matrix (Fin s) (Fin s) ℚ)
    (D1 : Fin s → ℚ) (hD : ∀ j, D1 j = 0) (tau : List ℚ) (m : ℕ) (c1 : Fin s → ℚ) :
    ∀ i, (loopState B D1 tau m c1 i).2 = combState tau m i := by
  intro i
  induction i with
  | zero => rfl
  | succ i ih =>
      simp only [loopState, loopStep, combState, combStep, ih]
      simp [hD]

theorem loopSummand_eq_summand (mat Cv Dv : List ℚ) (n x : ℕ)
    (hDv : ∀ t, Dv.getD t 0 = 0) :
    loopSummand mat Cv Dv n x = summand mat n x := by
  simp only [loopSummand, summand]
  rw [loopState_snd_of_D1_zero (redMat mat n (posList (n / 2) x))
    (fun i => Dv.getD ((posList (n / 2) x).get i) 0) (fun i => hDv _)
    (tracesOf mat n x) (n / 2)
    (fun i => Cv.getD ((posList (n / 2) x).get i) 0) (n / 2)]

theorem Dvec_getD_zero (mat : List ℚ) (n : ℕ)
    (hdiag : ∀ i, i < n → mat.getD (i * n + i) 0 = 0) :
    ∀ t, (Dvec mat n).getD t 0 = 0 := by
  intro t
  by_cases ht : t < n
  · have hlen : t < (Dvec mat n).length := by simp [Dvec, ht]
    rw [List.getD_eq_getElem?_getD]
    rw [Dvec, List.getElem?_map, List.getElem?_range ht]
    exact hdiag t ht
  · rw [List.getD_eq_default]
    simp only [Dvec, List.length_map, List.length_range]
    omega

/-- Claim C9: for every matrix whose diagonal entries are all zero,
`loop_hafnian` returns exactly the same value as `hafnian` (the zero
diagonal makes every `0.5·⟨C1, D1⟩` correction vanish, so the loop-mode
fold coincides with the plain fold at every subset). -/
theorem loop_hafnian_zero_diag (mat : List ℚ)
    (hdiag : ∀ i, i < Nat.sqrt mat.length →
      mat.getD (i * Nat.sqrt mat.length + i) 0 = 0) :
    loopHafnianChecked mat = hafnianChecked mat := by
  rw [loopHafnianChecked, hafnianChecked]
  by_cases hn : Nat.sqrt mat.length % 2 = 0
  · rw [if_pos hn, if_pos hn]
    congr 1
    rw [do_chunk_loops, do_chunk, Nat.zero_mul]
    have hfun : (fun (res : ℚ) (x : ℕ) =>
        res + loopSummand mat (Cvec (Dvec mat (Nat.sqrt mat.length)) (Nat.sqrt mat.length))
          (Dvec mat (Nat.sqrt mat.length)) (Nat.sqrt mat.length) x) =
        (fun (res : ℚ) (x : ℕ) => res + summand mat (Nat.sqrt mat.length) x) := by
      funext res x
      rw [loopSummand_eq_summand _ _ _ _ _ (Dvec_getD_zero mat _ hdiag)]
    rw [hfun]
  · rw [if_neg hn, if_neg hn]

theorem sqrt_four : Nat.sqrt 4 = 2 := (Nat.eq_sqrt.mpr (by omega)).symm

theorem sqrt_nine : Nat.sqrt 9 = 3 := (Nat.eq_sqrt.mpr (by omega)).symm

theorem sqrt_seventeen : Nat.sqrt 17 = 4 := (Nat.eq_sqrt.mpr (by omega)).symm

unseal Rat.add Rat.mul Rat.inv Rat.sub in
/-- Claim C9 witness: on `[[0,1],[1,0]]` (zero diagonal) both entry points
agree and return `1`. -/
theorem loop_hafnian_zero_diag_witness :
    loopHafnianChecked [0, 1, 1, 0] = hafnianChecked [0, 1, 1, 0] ∧
    hafnianChecked [0, 1, 1, 0] = Except.ok 1 := by
  have hlen : ([0, 1, 1, 0] : List ℚ).length = 4 := rfl
  have hsq : Nat.sqrt ([0, 1, 1, 0] : List ℚ).length = 2 := by rw [hlen, sqrt_four]
  refine ⟨loop_hafnian_zero_diag [0, 1, 1, 0] ?_, ?_⟩
  · intro i hi
    rw [hsq] at hi
    have h2 : i = 0 ∨ i = 1 := by omega
    rcases h2 with h | h <;> subst h <;> rw [hsq] <;> decide
  · simp only [hafnianChecked, hsq]
    norm_num
    decide

theorem pairsList_append (t : ℕ) :
    pairsList (t + 1) = pairsList t ++ (List.range t).map (fun k => (t, k)) := by
  rw [pairsList, pairsList, List.range_succ, List.flatMap_append]
  simp

theorem pairsList_length_double : ∀ t, 2 * (pairsList t).length = t * (t - 1) := by
  intro t
  induction t with
  | zero => rfl
  | succ t ih =>
      rw [pairsList_append, List.length_append, List.length_map, List.length_range,
        Nat.mul_add, ih]
      cases t with
      | zero => rfl
      | succ s =>
          rw [Nat.add_sub_cancel, Nat.add_sub_cancel]
          ring

theorem pairsList_length (t : ℕ) : (pairsList t).length = t * (t - 1) / 2 :=
  (Nat.div_eq_of_eq_mul_left (by omega)
    (by rw [Nat.mul_comm (pairsList t).length 2]
        exact (pairsList_length_double t).symm)).symm

theorem pairsList_getElem? :
    ∀ t j k, j < t → k < j → (pairsList t)[j * (j - 1) / 2 + k]? = some (j, k) := by
  intro t
  induction t with
  | zero => intro j k hj; omega
  | succ t ih =>
      intro j k hj hk
      rcases Nat.lt_or_ge j t with hjt | hjt
      · have hsome := ih j k hjt hk
        have hlt : j * (j - 1) / 2 + k < (pairsList t).length :=
          (List.getElem?_eq_some_iff.mp hsome).1
        rw [pairsList_append, List.getElem?_append_left hlt]
        exact hsome
      · have hjeq : j = t := by omega
        subst hjeq
        have hidx : j * (j - 1) / 2 + k = (pairsList j).length + k := by
          rw [pairsList_length]
        rw [pairsList_append, hidx,
          List.getElem?_append_right (Nat.le_add_right _ _)]
        rw [Nat.add_sub_cancel_left]
        rw [List.getElem?_map, List.getElem?_range hk]
        rfl

/-- Claim C7 (amended): `hafnian_int` seeds the triangular array with
constant terms `mat[2jn + k]` for `1 ≤ j < 2n` (not `j < n`), `0 ≤ k < j`
(all other coefficients zero, rows of length `n+1`), sets `g = [1,0,…,0]`
and `w = +1`, and calls the engine at size `s = 2n` with degree bound `n`. -/
theorem hafnian_int_seeding :
    (∀ mat : List ℤ,
        hafnian_int mat =
          recursive_int (seedArray mat (Nat.sqrt mat.length / 2))
            (2 * (Nat.sqrt mat.length / 2)) 1
            (1 :: List.replicate (Nat.sqrt mat.length / 2) 0)
            (Nat.sqrt mat.length / 2)) ∧
    (∀ (mat : List ℤ) (n : ℕ), (seedArray mat n).length = n * (2 * n - 1)) ∧
    (∀ (mat : List ℤ) (n j k : ℕ), 1 ≤ j → j < 2 * n → k < j →
        (seedArray mat n).getD (j * (j - 1) / 2 + k) [] =
          mat.getD (2 * j * n + k) 0 :: List.replicate n 0) := by
  refine ⟨fun mat => rfl, ?_, ?_⟩
  · intro mat n
    rw [seedArray, List.length_map, pairsList_length, Nat.mul_assoc,
      Nat.mul_div_cancel_left _ (by omega : 0 < 2)]
  · intro mat n j k _ hj hk
    rw [seedArray, List.getD_eq_getElem?_getD, List.getElem?_map,
      pairsList_getElem? (2 * n) j k hj hk]
    rfl

/-- Claim C7 witness: at `n = 1` on the `2×2` matrix `[[0,1],[1,0]]` the
pair `(j,k) = (1,0)` (allowed since `j = 1 < 2n = 2`) seeds row `0` with
constant term `mat[2·1·1+0] = mat[2] = 1`. -/
theorem hafnian_int_seeding_witness :
    ((1 : ℕ) ≤ 1 ∧ 1 < 2 * 1 ∧ 0 < 1) ∧
    (seedArray [0, 1, 1, 0] 1).getD (1 * (1 - 1) / 2 + 0) [] =
      ([0, 1, 1, 0] : List ℤ).getD (2 * 1 * 1 + 0) 0 :: List.replicate 1 0 :=
  ⟨⟨by decide, by decide, by decide⟩,
    hafnian_int_seeding.2.2 [0, 1, 1, 0] 1 1 0 (by decide) (by decide) (by decide)⟩

/-- Claim C7 as stated is false: for the `2×2` matrix `[[0,1],[1,0]]`
(`n = 1`) the claim's range `1 ≤ j < n` is empty, so the claim-described
array is all zero, but the code seeds row `0` from `mat[2·1·1+0] = 1`
(the loop bound is `j < 2n`). -/
theorem hafnian_int_seed_cex :
    seedArray [0, 1, 1, 0] 1 ≠ claimSeedArray [0, 1, 1, 0] 1 := by
  decide

/-- Claim C8 (amended): the reduce step copies the rows
`b[(j+1)(j+2)/2 + k + 2]` for the index pairs with `0 ≤ k < j < s−2`
(the loop starts at `k = 0`, not `k = 1`), the first recursive call is
`recursive(c, s−2, −w, g, n)`, and the base case `s = 0` returns
`w · g[n]`. -/
theorem recursive_reduce_structure :
    (∀ (b : List (List ℤ)) (w : ℤ) (g : List ℤ) (n : ℕ),
        recursive_int b 0 w g n = w * g.getD n 0) ∧
    (∀ (b : List (List ℤ)) (s n : ℕ),
        (reduceArray b s n).length = (s - 2) * (s - 3) / 2 ∧
        (∀ j k, j < s - 2 → k < j →
          (reduceArray b s n).getD (j * (j - 1) / 2 + k) [] =
            (List.range (n + 1)).map (rowGet b ((j + 1) * (j + 2) / 2 + k + 2)))) ∧
    (∀ (b : List (List ℤ)) (s : ℕ) (w : ℤ) (g : List ℤ) (n : ℕ), s ≠ 0 →
        recursive_int b s w g n =
          recursive_int (reduceArray b s n) (s - 2) (-w) g n +
            recursive_int (augmentC (reduceArray b s n) b s n) (s - 2) w
              (augmentG g b n) n) := by
  refine ⟨?_, ?_, ?_⟩
  · intro b w g n
    simp [recursive_int]
  · intro b s n
    constructor
    · rw [reduceArray, List.length_map, pairsList_length]
      have h3 : s - 2 - 1 = s - 3 := by omega
      rw [h3]
    · intro j k hj hk
      rw [reduceArray, List.getD_eq_getElem?_getD, List.getElem?_map,
        pairsList_getElem? (s - 2) j k hj hk]
      rfl
  · intro b s w g n hs
    conv_lhs => rw [recursive_int.eq_def]
    rw [dif_neg hs]

/-- Claim C8 witness: at `s = 4`, `n = 0`, the pair `(j,k) = (1,0)` copies
row `b[(2·3)/2 + 0 + 2] = b[5] = [5]` into `c[0]`, and the unfold equation
holds at a concrete state. -/
theorem recursive_reduce_structure_witness :
    ((1 : ℕ) < 4 - 2 ∧ 0 < 1 ∧ (4 : ℕ) ≠ 0) ∧
    (reduceArray [[], [], [], [], [], [5]] 4 0).getD (1 * (1 - 1) / 2 + 0) [] =
      (List.range (0 + 1)).map
        (rowGet [[], [], [], [], [], [5]] ((1 + 1) * (1 + 2) / 2 + 0 + 2)) ∧
    recursive_int [[], [], [], [], [], [5]] 4 1 [1] 0 =
      recursive_int (reduceArray [[], [], [], [], [], [5]] 4 0) 2 (-1) [1] 0 +
        recursive_int
          (augmentC (reduceArray [[], [], [], [], [], [5]] 4 0)
            [[], [], [], [], [], [5]] 4 0) 2 1
          (augmentG [1] [[], [], [], [], [], [5]] 0) 0 :=
  ⟨⟨by decide, by decide, by decide⟩,
    (recursive_reduce_structure.2.1 [[], [], [], [], [], [5]] 4 0).2 1 0
      (by decide) (by decide),
    recursive_reduce_structure.2.2 [[], [], [], [], [], [5]] 4 1 [1] 0 (by decide)⟩

/-- Claim C8 as stated is false: with `s = 4` the claim's pair range
`1 ≤ k < j < s−2` is empty, so the claim-described reduced array is all
zero, but the code copies `b[5]` into `c[0]` via the pair `(j,k) = (1,0)`
(the `k` loop starts at `0`). -/
theorem recursive_reduce_cex :
    reduceArray [[], [], [], [], [], [1]] 4 0 ≠
      claimReduceArray [[], [], [], [], [], [1]] 4 0 := by
  decide

/-- Claim C10: the recursive integer engine terminates on even sizes:
every call decreases `s` by exactly `2`, so fuel `s/2` suffices to reach
the base case, and `hafnian_int` always invokes it at the even size
`s = 2n`. -/
theorem recursive_int_terminates :
    (∀ (fuel s : ℕ) (b : List (List ℤ)) (w : ℤ) (g : List ℤ) (n : ℕ),
        s % 2 = 0 → s / 2 ≤ fuel →
        recursiveF fuel b s w g n = some (recursive_int b s w g n)) ∧
    (∀ mat : List ℤ,
        recursiveF (Nat.sqrt mat.length / 2)
          (seedArray mat (Nat.sqrt mat.length / 2))
          (2 * (Nat.sqrt mat.length / 2)) 1
          (1 :: List.replicate (Nat.sqrt mat.length / 2) 0)
          (Nat.sqrt mat.length / 2) = some (hafnian_int mat)) := by
  have main : ∀ (fuel s : ℕ) (b : List (List ℤ)) (w : ℤ) (g : List ℤ) (n : ℕ),
      s % 2 = 0 → s / 2 ≤ fuel →
      recursiveF fuel b s w g n = some (recursive_int b s w g n) := by
    intro fuel
    induction fuel with
    | zero =>
        intro s b w g n hev hle
        have hs0 : s = 0 := by omega
        subst hs0
        simp [recursiveF, recursive_int]
    | succ fuel ih =>
        intro s b w g n hev hle
        cases s with
        | zero => simp [recursiveF, recursive_int]
        | succ s' =>
            have hev2 : (s' + 1 - 2) % 2 = 0 := by omega
            have hle2 : (s' + 1 - 2) / 2 ≤ fuel := by omega
            simp only [recursiveF]
            rw [ih (s' + 1 - 2) (reduceArray b (s' + 1) n) (-w) g n hev2 hle2,
              ih (s' + 1 - 2) (augmentC (reduceArray b (s' + 1) n) b (s' + 1) n) w
                (augmentG g b n) n hev2 hle2]
            conv_rhs => rw [recursive_int.eq_def]
            rw [dif_neg (Nat.succ_ne_zero s')]
  refine ⟨main, ?_⟩
  intro mat
  exact main (Nat.sqrt mat.length / 2) (2 * (Nat.sqrt mat.length / 2))
    (seedArray mat (Nat.sqrt mat.length / 2)) 1
    (1 :: List.replicate (Nat.sqrt mat.length / 2) 0) (Nat.sqrt mat.length / 2)
    (by omega) (by omega)

/-- Claim C10 witness: fuel `1 = s/2` suffices at the even size `s = 2`. -/
theorem recursive_int_terminates_witness :
    ((2 : ℕ) % 2 = 0 ∧ 2 / 2 ≤ 1) ∧
    recursiveF 1 [[1, 0]] 2 1 [1, 0] 1 = some (recursive_int [[1, 0]] 2 1 [1, 0] 1) :=
  ⟨⟨by decide, by decide⟩,
    recursive_int_terminates.1 1 2 [[1, 0]] 1 [1, 0] 1 (by decide) (by decide)⟩

/-- Claim C5 (amended): `hafnian` and `loop_hafnian` reject (via the
assert) exactly the inputs whose computed order `n = ⌊√|A|⌋` is odd;
element counts that are not perfect squares but have an even `⌊√|A|⌋` are
accepted, and `hafnian_int` performs no precondition check at all, always
returning a computed value. -/
theorem entry_point_checks (matq : List ℚ) (matz : List ℤ) :
    (hafnianChecked matq = Except.error HafError.EvenDimensionRequired ↔
      Nat.sqrt matq.length % 2 = 1) ∧
    (loopHafnianChecked matq = Except.error HafError.EvenDimensionRequired ↔
      Nat.sqrt matq.length % 2 = 1) ∧
    hafnianIntChecked matz = Except.ok (hafnian_int matz) := by
  refine ⟨?_, ?_, rfl⟩
  · rw [hafnianChecked]
    by_cases h : Nat.sqrt matq.length % 2 = 0
    · rw [if_pos h]
      constructor
      · intro hc
        exact absurd hc (by intro hc2; exact Except.noConfusion hc2)
      · intro h1
        omega
    · rw [if_neg h]
      constructor
      · intro _
        omega
      · intro _
        rfl
  · rw [loopHafnianChecked]
    by_cases h : Nat.sqrt matq.length % 2 = 0
    · rw [if_pos h]
      constructor
      · intro hc
        exact absurd hc (by intro hc2; exact Except.noConfusion hc2)
      · intro h1
        omega
    · rw [if_neg h]
      constructor
      · intro _
        omega
      · intro _
        rfl

unseal Rat.add Rat.mul Rat.inv Rat.sub in
/-- Claim C5 as stated is false: `hafnian_int` never rejects — on a `3×3`
(odd order) all-ones matrix it returns a computed value rather than the
`EvenDimensionRequired` error — and `hafnian` accepts the 17-element input
(not a perfect square, `⌊√17⌋ = 4` even), computing `0`. -/
theorem entry_point_checks_cex :
    hafnianIntChecked (List.replicate 9 1) ≠
      Except.error HafError.EvenDimensionRequired ∧
    Nat.sqrt (List.replicate 9 (1 : ℤ)).length % 2 = 1 ∧
    hafnianChecked (List.replicate 17 0) = Except.ok 0 ∧
    Nat.sqrt (List.replicate 17 (0 : ℚ)).length *
      Nat.sqrt (List.replicate 17 (0 : ℚ)).length ≠ 17 := by
  have h9 : (List.replicate 9 (1 : ℤ)).length = 9 := by simp
  have h17 : (List.replicate 17 (0 : ℚ)).length = 17 := by simp
  refine ⟨?_, ?_, ?_, ?_⟩
  · intro hc
    exact Except.noConfusion hc
  · rw [h9, sqrt_nine]
  · have hsq : Nat.sqrt (List.replicate 17 (0 : ℚ)).length = 4 := by
      rw [h17, sqrt_seventeen]
    simp only [hafnianChecked, hsq]
    norm_num
    decide
  · rw [h17, sqrt_seventeen]
    decide

unseal Rat.add Rat.mul Rat.inv Rat.sub in
/-- Claim C1 as stated is false for the loop-mode worker: with the all-ones
`4×4` matrix, `X = 1`, `C = 2` (so `X + C = 3 ≤ 2^2`), the worker does not
return `Σ_{x=1}^{2} summand(x)` (it returns the sum over `{2, 3}` instead). -/
theorem chunk_loops_range_cex :
    do_chunk_loops (List.replicate 16 1) (List.replicate 4 1) (List.replicate 4 1) 4 1 2 ≠
      ∑ x ∈ Finset.Ico 1 3,
        loopSummand (List.replicate 16 1) (List.replicate 4 1) (List.replicate 4 1) 4 x := by
  decide

end Haf


